import Mathlib

/-!
Verification of go-makepkg (PKGBUILD generator for Go programs).

The program's pure string logic and its filesystem-touching procedures are
embedded shallowly.  Go strings are modelled as lists of characters
(`GoStr`), so that positional operations of the Go standard library
(`strings.TrimSuffix`, `strings.Replace`, `strings.Split`, `path.Base`,
`path.Ext`, ...) have direct executable counterparts.  Filesystem state is
an association list from path to node; stateful procedures
(`createOutputDir`, `prepareFileList`, `copyLocalFiles`, `createGitignore`)
take and return that state explicitly, paired with the Go error value they
return (`none` models a nil error).
-/

namespace GoMakepkg

/-- A Go string, modelled as its list of characters. -/
abbrev GoStr := List Char

/-! ## Go standard library string functions (modelled from their documented
semantics in the strings / path packages) -/

/-- Go strings.HasPrefix: tests whether the string begins with the given
leading string. -/
def goStartsWith (s lead : GoStr) : Bool := lead.isPrefixOf s

/-- Go strings.HasSuffix: tests whether the string ends with the given
trailing string. -/
def goHasSuffix (s trail : GoStr) : Bool := trail.isSuffixOf s

/-- Go strings.TrimSuffix: removes one trailing copy of the given string,
when present; otherwise returns the input unchanged. -/
def goTrimSuffix (s trail : GoStr) : GoStr :=
  if goHasSuffix s trail then s.take (s.length - trail.length) else s

/-- Whether the pattern occurs as a contiguous substring, as tested by Go
strings.Contains. -/
def containsSub : GoStr → GoStr → Bool
  | [], pat => pat.isPrefixOf ([] : GoStr)
  | c :: rest, pat => pat.isPrefixOf (c :: rest) || containsSub rest pat

/-- Helper for goReplaceAll: replaces every non-overlapping occurrence of
old (assumed nonempty), scanning left to right, exactly as Go
strings.Replace with count -1.  The fuel argument only serves structural
termination; each step consumes at least one character, so fuel equal to
the string length never runs out. -/
def replaceAllFuel (old new : GoStr) : Nat → GoStr → GoStr
  | 0, s => s
  | _ + 1, [] => []
  | fuel + 1, c :: rest =>
    if old.isPrefixOf (c :: rest) then
      new ++ replaceAllFuel old new fuel (rest.drop (old.length - 1))
    else
      c :: replaceAllFuel old new fuel rest

/-- Go strings.Replace(s, old, new, -1) for nonempty old.  (The program
only calls it with old equal to a nonempty scheme or host string; the
empty-old insertion behavior of Go is not needed and the input is returned
unchanged in that case.) -/
def goReplaceAll (s old new : GoStr) : GoStr :=
  match old with
  | [] => s
  | o :: os => replaceAllFuel (o :: os) new s.length s

/-- Go strings.Split(s, ",") : splits around each comma; the result of
splitting the empty string is a one-element list holding the empty
string. -/
def goSplitComma : GoStr → List GoStr
  | [] => [[]]
  | c :: rest =>
    if c = ',' then [] :: goSplitComma rest
    else
      match goSplitComma rest with
      | [] => [[c]]
      | h :: t => (c :: h) :: t

/-- Go strings.Join: concatenates the elements with the separator between
adjacent elements. -/
def goJoinStrings (xs : List GoStr) (sep : GoStr) : GoStr :=
  match xs with
  | [] => []
  | [x] => x
  | x :: rest => x ++ sep ++ goJoinStrings rest sep

/-- Removes the trailing slashes, as the loop at the start of Go
path.Base does. -/
def dropTrailingSlashes (s : GoStr) : GoStr :=
  (s.reverse.dropWhile (fun c => c = '/')).reverse

/-- The part after the last slash (the whole string when there is no
slash), as the strings.LastIndex step of Go path.Base computes. -/
def afterLastSlash (s : GoStr) : GoStr :=
  (s.reverse.takeWhile (fun c => c ≠ '/')).reverse

/-- Go path.Base: the last element of the path, after removing trailing
slashes; "." for the empty path, "/" when the path is all slashes. -/
def goPathBase (s : GoStr) : GoStr :=
  if s = [] then ['.']
  else
    let trimmed := dropTrailingSlashes s
    let b := afterLastSlash trimmed
    if b = [] then ['/'] else b

/-- Helper for goPathExt: scans the reversed string; acc holds the
already-scanned characters in forward order. -/
def goPathExtAux (acc : GoStr) : GoStr → GoStr
  | [] => []
  | c :: rest =>
    if c = '/' then []
    else if c = '.' then c :: acc
    else goPathExtAux (c :: acc) rest

/-- Go path.Ext: the suffix beginning at the final dot of the final
slash-separated element; empty when there is no dot. -/
def goPathExt (s : GoStr) : GoStr := goPathExtAux [] s.reverse

/-! ## String-level functions of main.go -/

/-- The wildcard marker the tool strips from repository URLs. -/
def wildcardMarker : GoStr := "/...".toList

/-- trimWildcardFromRepoURL: strips one trailing wildcard marker with
strings.TrimSuffix and reports whether anything was stripped. -/
def trimWildcardFromRepoURL (repo : GoStr) : GoStr × Bool :=
  let safeURL := goTrimSuffix repo wildcardMarker
  (safeURL, safeURL != repo)

/-- parseCommaList: nil (absent flag) yields the empty list; a present
string value is split around commas. -/
def parseCommaList : Option GoStr → List GoStr
  | none => []
  | some v => goSplitComma v

/-- getPackageNameFromRepoURL: the base path component of the URL with its
final extension trimmed off. -/
def getPackageNameFromRepoURL (repo : GoStr) : GoStr :=
  let base := goPathBase repo
  let ext := goPathExt base
  goTrimSuffix base ext

/-- A File Entry: source path, destination base name, content hash. -/
structure pkgFile where
  Path : GoStr
  Name : GoStr
  Hash : GoStr
deriving DecidableEq

/-- The prefix that marks a file for the backup list. -/
def etcSlash : GoStr := "etc/".toList

/-- Loop body of createBackupList: the Go loop appends the source path of
every entry whose path starts with etc/ to the accumulator. -/
def createBackupListAux (acc : List GoStr) : List pkgFile → List GoStr
  | [] => acc
  | f :: rest =>
    if goStartsWith f.Path etcSlash then createBackupListAux (acc ++ [f.Path]) rest
    else createBackupListAux acc rest

/-- createBackupList: collects the source paths of the entries whose path
starts with etc/, in order. -/
def createBackupList (files : List pkgFile) : List GoStr :=
  createBackupListAux [] files

/-- The fixed ignore entries of createGitignore, with the package name
appended to a slash for the last line. -/
def gitignoreLines (pkgName : GoStr) : List GoStr :=
  [ "/*.tar.xz".toList, "/pkg".toList, "/src".toList, '/' :: pkgName ]

/-- The newline character as a one-character string. -/
def newlineStr : GoStr := ['\n']

/-- The contents createGitignore writes: the ignore entries joined by
newlines, with a trailing newline. -/
def gitignoreContents (pkgName : GoStr) : GoStr :=
  goJoinStrings (gitignoreLines pkgName) newlineStr ++ newlineStr

/-! ## Filesystem model

Filesystem state is an association list from path to node; lookup returns
the most recently written binding.  A regular file carries its byte
content.  Go error values are modelled by an Option: none is the nil
error.  Stat failures other than "does not exist" (for instance permission
errors) are not modelled, so osStat fails exactly on absent paths. -/

/-- A filesystem node: a directory or a regular file with its content. -/
inductive FSNode
  | dir
  | file (bytes : GoStr)
deriving DecidableEq

/-- Filesystem state: newest binding first. -/
abbrev FS := List (GoStr × FSNode)

/-- The modelled Go error values. -/
inductive GoError
  | notExist
  | alreadyExists
  | isDirErr
deriving DecidableEq

/-- Path lookup, newest binding first (a later write shadows an earlier
one). -/
def fsLookup (fs : FS) (p : GoStr) : Option FSNode :=
  match fs with
  | [] => none
  | (q, n) :: rest => if q = p then some n else fsLookup rest p

/-- Go os.Stat: the node and a nil error when the path exists, otherwise a
not-exist error. -/
def osStat (fs : FS) (p : GoStr) : Option FSNode × Option GoError :=
  match fsLookup fs p with
  | some n => (some n, none)
  | none => (none, some GoError.notExist)

/-- Go os.IsNotExist: true exactly on errors reporting that a file does
not exist; in particular false on a nil error. -/
def osIsNotExist : Option GoError → Bool
  | some GoError.notExist => true
  | _ => false

/-- Go os.IsExist: true exactly on errors reporting that a file already
exists; false on a nil error and on every error osStat can produce. -/
def osIsExist : Option GoError → Bool
  | some GoError.alreadyExists => true
  | _ => false

/-- Go os.Mkdir, at the call site where the path is known absent: records
a directory.  (Failure modes such as a missing parent are not
modelled.) -/
def osMkdir (fs : FS) (p : GoStr) : FS × Option GoError :=
  ((p, FSNode.dir) :: fs, none)

/-- Go os.Link: fails when the source is absent or the target present;
otherwise the target becomes a second name for the source node. -/
def osLink (fs : FS) (src dst : GoStr) : FS × Option GoError :=
  match fsLookup fs src with
  | none => (fs, some GoError.notExist)
  | some n =>
    match fsLookup fs dst with
    | some _ => (fs, some GoError.alreadyExists)
    | none => ((dst, n) :: fs, none)

/-- Go filepath.Join of two components, modelled without the trailing
Clean step (the claims under verification do not depend on path
normalization). -/
def filepathJoin (a b : GoStr) : GoStr :=
  if a = [] then b else if b = [] then a else a ++ '/' :: b

/-- Stand-in for the hex MD5 digest of a file's bytes; the claims under
verification do not depend on the digest function itself, only on the
hash being computed from an existing regular file. -/
def goFileHash (bytes : GoStr) : GoStr := bytes

/-- getFileHash: opening an absent path fails; copying from a directory
fails; a regular file yields the digest of its bytes. -/
def getFileHash (fs : FS) (p : GoStr) : Except GoError GoStr :=
  match fsLookup fs p with
  | none => .error GoError.notExist
  | some FSNode.dir => .error GoError.isDirErr
  | some (FSNode.file bytes) => .ok (goFileHash bytes)

/-! ## Filesystem-touching procedures of main.go -/

/-- createOutputDir: stats the directory name; unless the stat error is a
not-exist error, the stat error itself (nil when the stat succeeded) is
returned; otherwise the directory is created. -/
def createOutputDir (fs : FS) (dirName : GoStr) : FS × Option GoError :=
  let statErr := (osStat fs dirName).2
  if ¬ (osIsNotExist statErr = true) then (fs, statErr)
  else
    match osMkdir fs dirName with
    | (fs2, none) => (fs2, none)
    | (_, some e) => (fs, some e)

/-- Whether a stat result reports a directory, as Go stat.IsDir() does. -/
def isDirStat : Option FSNode → Bool
  | some FSNode.dir => true
  | _ => false

/-- The literal generated-script filename that prepareFileList skips. -/
def pkgbuildName : GoStr := "PKGBUILD".toList

/-- Loop of prepareFileList over the remaining names; acc holds the
File Entries collected so far, in order.  For each name: a stat error for
which os.IsExist holds is skipped (a branch no osStat error satisfies);
any other stat error is returned; directories, the literal PKGBUILD name
and names under the output directory are skipped; otherwise the file is
hashed and appended. -/
def prepareFileListAux (fs : FS) (outDir : GoStr) (acc : List pkgFile) :
    List GoStr → Except GoError (List pkgFile)
  | [] => .ok acc
  | name :: rest =>
    match osStat fs name with
    | (_, some e) =>
      if osIsExist (some e) then prepareFileListAux fs outDir acc rest
      else .error e
    | (stat, none) =>
      if isDirStat stat then prepareFileListAux fs outDir acc rest
      else if name = pkgbuildName then prepareFileListAux fs outDir acc rest
      else if goStartsWith name outDir then prepareFileListAux fs outDir acc rest
      else
        match getFileHash fs name with
        | .error e => .error e
        | .ok h =>
          prepareFileListAux fs outDir
            (acc ++ [{ Path := name, Name := goPathBase name, Hash := h }]) rest

/-- prepareFileList: collects a File Entry for each usable input path,
returning the first error met. -/
def prepareFileList (fs : FS) (names : List GoStr) (outDir : GoStr) :
    Except GoError (List pkgFile) :=
  prepareFileListAux fs outDir [] names

/-- copyLocalFiles: for each entry, stats the target name in the output
directory; a stat error other than not-exist is returned; an existing
target is skipped; an absent target is hard-linked from the entry's source
path, and a link failure is returned. -/
def copyLocalFiles (fs : FS) (files : List pkgFile) (outDir : GoStr) :
    FS × Option GoError :=
  match files with
  | [] => (fs, none)
  | f :: rest =>
    let targetName := filepathJoin outDir f.Name
    match osStat fs targetName with
    | (_, some e) =>
      if ¬ (osIsNotExist (some e) = true) then (fs, some e)
      else
        match osLink fs f.Path targetName with
        | (_, some e2) => (fs, some e2)
        | (fs2, none) => copyLocalFiles fs2 rest outDir
    | (_, none) => copyLocalFiles fs rest outDir

/-- The .gitignore file name. -/
def gitignoreName : GoStr := ".gitignore".toList

/-- createGitignore: writes the gitignore contents for the package name
into the output directory (ioutil.WriteFile overwrites). -/
def createGitignore (fs : FS) (dirName pkgName : GoStr) : FS × Option GoError :=
  ((filepathJoin dirName gitignoreName, FSNode.file (gitignoreContents pkgName)) :: fs,
   none)

/-! ## URL parsing model

`parseURL` models the scheme and host extraction of Go net/url.Parse
(the only two components the program reads), faithful to the stdlib
source for: rejecting control characters, splitting the fragment at the
first #, scheme scanning and lowercasing, splitting the query at the
first ?, opaque URLs, authority extraction between // and the next /,
userinfo split at the last @, and port validation after the last colon.
Not modelled (the model simply fails on them, or accepts a slight
superset): bracketed IPv6 hosts, percent-escapes, and the few host and
userinfo characters Go additionally permits (apostrophe, quote, angle
brackets, percent). -/

/-- A parsed URL, restricted to the two components the program reads. -/
structure GoURL where
  scheme : GoStr
  host : GoStr
deriving DecidableEq

/-- A letter, always allowed inside a scheme. -/
def isSchemeAlpha (c : Char) : Bool :=
  ('a' ≤ c && c ≤ 'z') || ('A' ≤ c && c ≤ 'Z')

/-- A digit or +, -, .: allowed inside a scheme except in first
position. -/
def isSchemeExtra (c : Char) : Bool :=
  ('0' ≤ c && c ≤ '9') || c = '+' || c = '-' || c = '.'

/-- The scan of net/url getScheme: none is the "missing protocol scheme"
error; otherwise the (not yet lowercased) scheme and the rest, with an
empty scheme when the URL has none. -/
def schemeScanAux (full : GoStr) (i : Nat) : GoStr → Option (GoStr × GoStr)
  | [] => some ([], full)
  | c :: rest =>
    if isSchemeAlpha c then schemeScanAux full (i + 1) rest
    else if isSchemeExtra c then
      if i = 0 then some ([], full) else schemeScanAux full (i + 1) rest
    else if c = ':' then
      if i = 0 then none else some (full.take i, full.drop (i + 1))
    else some ([], full)

/-- net/url getScheme. -/
def getScheme (s : GoStr) : Option (GoStr × GoStr) := schemeScanAux s 0 s

/-- A control byte, which net/url.Parse rejects anywhere in a URL. -/
def isCtlByte (c : Char) : Bool := c.val < 32 || c.val = 127

/-- The part of the string before the first occurrence of the given
character (the whole string when absent). -/
def takeUntilChar (s : GoStr) (c : Char) : GoStr := s.takeWhile (fun d => d ≠ c)

/-- A character the model accepts in a host. -/
def isHostChar (c : Char) : Bool :=
  c.isAlpha || c.isDigit ||
    ['-', '.', '_', '~', '!', '$', '&', '(', ')', '*', '+', ',', ';', '=',
     ':', '[', ']'].contains c

/-- A character the model accepts in userinfo. -/
def isUserinfoChar (c : Char) : Bool :=
  c.isAlpha || c.isDigit ||
    ['-', '.', '_', ':', '~', '!', '$', '&', '(', ')', '*', '+', ',', ';',
     '=', '@'].contains c

/-- net/url validOptionalPort: empty, or a colon followed by digits
only. -/
def validOptionalPort : GoStr → Bool
  | [] => true
  | c :: rest => c = ':' && rest.all (fun d => d.isDigit)

/-- The tail of the host from its last colon (empty when the host has no
colon), as net/url parseHost isolates the optional port. -/
def hostColonPort (h : GoStr) : GoStr :=
  if h.contains ':' then ':' :: (h.reverse.takeWhile (fun c => c ≠ ':')).reverse
  else []

/-- net/url parseHost, without bracketed IPv6 hosts and without
percent-escapes. -/
def parseHost (h : GoStr) : Option GoStr :=
  if goStartsWith h ['['] then none
  else if ¬ (validOptionalPort (hostColonPort h) = true) then none
  else if h.all isHostChar then some h else none

/-- The part of the authority after its last @ (the whole authority when
there is no @). -/
def authAfterLastAt (a : GoStr) : GoStr :=
  (a.reverse.takeWhile (fun c => c ≠ '@')).reverse

/-- The part of the authority before its last @. -/
def authBeforeLastAt (a : GoStr) : GoStr :=
  a.take (a.length - (authAfterLastAt a).length - 1)

/-- net/url parseAuthority: userinfo before the last @, validated
character-wise; the host after it. -/
def parseAuthority (authority : GoStr) : Option GoStr :=
  if authority.contains '@' then
    if (authBeforeLastAt authority).all isUserinfoChar then
      parseHost (authAfterLastAt authority)
    else none
  else parseHost authority

/-- The first slash-separated segment of a relative path. -/
def firstPathSegment (s : GoStr) : GoStr := takeUntilChar s '/'

/-- net/url.Parse restricted to scheme and host (see the section
comment).  none models a parse error, which main treats as fatal. -/
def parseURL (rawURL : GoStr) : Option GoURL :=
  if rawURL.any isCtlByte then none
  else
    let noFrag := takeUntilChar rawURL '#'
    match getScheme noFrag with
    | none => none
    | some (schemeRaw, restA) =>
      let scheme := schemeRaw.map Char.toLower
      let rest := takeUntilChar restA '?'
      if scheme ≠ [] ∧ ¬ (goStartsWith rest ['/'] = true) then
        some { scheme := scheme, host := [] }
      else if goStartsWith rest ['/', '/'] = true ∧
          (scheme ≠ [] ∨ ¬ (goStartsWith rest ['/', '/', '/'] = true)) then
        match parseAuthority (takeUntilChar (rest.drop 2) '/') with
        | none => none
        | some h => some { scheme := scheme, host := h }
      else if scheme = [] ∧ ¬ (goStartsWith rest ['/'] = true) ∧
          (firstPathSegment rest).contains ':' = true then
        none
      else
        some { scheme := scheme, host := [] }

/-! ## URL normalization of main (lines 130-151)

main strips the wildcard marker, parses the result, and then: when the
parsed (lowercased) scheme is ssh or ssh+git, replaces every occurrence
of that scheme string in the URL with git+ssh; when the parsed host
contains a colon, replaces every occurrence of the host string with the
host with its colons turned into slashes.  An unparseable URL is fatal
(none). -/

/-- The ssh scheme literal. -/
def sshStr : GoStr := "ssh".toList

/-- The ssh+git scheme literal. -/
def sshGitStr : GoStr := "ssh+git".toList

/-- The git+ssh replacement literal. -/
def gitSshStr : GoStr := "git+ssh".toList

/-- The normalization main applies to the raw repository URL: wildcard
strip, ssh-scheme rewrite, host-colon rewrite; the Bool is the wildcard
flag. -/
def normalizeRepoURL (rawRepoURL : GoStr) : Option (GoStr × Bool) :=
  let t := trimWildcardFromRepoURL rawRepoURL
  match parseURL t.1 with
  | none => none
  | some repoURL =>
    let safe1 :=
      if repoURL.scheme = sshStr ∨ repoURL.scheme = sshGitStr then
        goReplaceAll t.1 repoURL.scheme gitSshStr
      else t.1
    let safe2 :=
      if repoURL.host.contains ':' then
        goReplaceAll safe1 repoURL.host (goReplaceAll repoURL.host [':'] ['/'])
      else safe1
    some (safe2, t.2)

/-! ## Helper lemmas -/

/-- Appending the loop accumulator: createBackupList is the ordered
projection of the paths starting with etc/ , in order. -/
theorem createBackupListAux_eq (files : List pkgFile) :
    ∀ acc, createBackupListAux acc files =
      acc ++ (files.filter (fun f => goStartsWith f.Path etcSlash)).map pkgFile.Path := by
  induction files with
  | nil => intro acc; simp [createBackupListAux]
  | cons f rest ih =>
    intro acc
    by_cases h : goStartsWith f.Path etcSlash = true
    · simp [createBackupListAux, h, ih]
    · simp [createBackupListAux, h, ih]

/-- Splitting a string around commas never yields an empty list. -/
theorem goSplitComma_ne_nil (s : GoStr) : goSplitComma s ≠ [] := by
  induction s with
  | nil => simp [goSplitComma]
  | cons c rest ih =>
    by_cases hc : c = ','
    · simp [goSplitComma, hc]
    · cases hsplit : goSplitComma rest with
      | nil => simp [goSplitComma, hc, hsplit]
      | cons h t => simp [goSplitComma, hc, hsplit]

/-- takeWhile runs past a block whose elements all satisfy the
predicate. -/
theorem takeWhile_append_of_all (pr : Char → Bool) (l₁ l₂ : GoStr)
    (h : ∀ c ∈ l₁, pr c = true) :
    (l₁ ++ l₂).takeWhile pr = l₁ ++ l₂.takeWhile pr := by
  induction l₁ with
  | nil => simp
  | cons a t ih =>
    have ha : pr a = true := h a (by simp)
    simp [List.takeWhile_cons, ha, ih (fun c hc => h c (by simp [hc]))]

/-- dropWhile is the identity on a list starting with a block whose head
fails the predicate. -/
theorem dropWhile_append_of_head (pr : Char → Bool) (l₁ l₂ : GoStr)
    (hne : l₁ ≠ []) (h : ∀ c ∈ l₁, pr c = false) :
    (l₁ ++ l₂).dropWhile pr = l₁ ++ l₂ := by
  cases l₁ with
  | nil => exact absurd rfl hne
  | cons a t =>
    have ha : pr a = false := h a (by simp)
    simp [List.dropWhile_cons, ha]

/-- The ext scan walks over dot-free, slash-free characters,
accumulating them. -/
theorem goPathExtAux_append (q : GoStr)
    (h : ∀ c ∈ q, c ≠ '/' ∧ c ≠ '.') :
    ∀ acc rest, goPathExtAux acc (q ++ rest) = goPathExtAux (q.reverse ++ acc) rest := by
  induction q with
  | nil => intro acc rest; simp
  | cons c t ih =>
    intro acc rest
    have hc := h c (by simp)
    have ht : ∀ d ∈ t, d ≠ '/' ∧ d ≠ '.' := fun d hd => h d (by simp [hd])
    simp [goPathExtAux, hc.1, hc.2, ih ht (c :: acc) rest]

/-- Replacement is the identity when the pattern does not occur,
whatever the fuel. -/
theorem replaceAllFuel_of_not_contains (old new : GoStr) :
    ∀ (fuel : Nat) (s : GoStr),
      containsSub s old = false → replaceAllFuel old new fuel s = s := by
  intro fuel
  induction fuel with
  | zero => intro s _; rfl
  | succ n ih =>
    intro s h
    cases s with
    | nil => rfl
    | cons c rest =>
      simp only [containsSub, Bool.or_eq_false_iff] at h
      simp [replaceAllFuel, h.1, ih rest h.2]

/-! ## Claim theorems -/

/-- Demo path and entry constants used by concrete instances. -/
def buildDir : GoStr := "build".toList

/-- The etc config path of the two-file example. -/
def etcConfPath : GoStr := "etc/app/config.conf".toList

/-- The README path of the two-file example. -/
def readmePath : GoStr := "README".toList

/-- C7: createBackupList returns exactly the source paths of the entries
whose path begins with etc/ , in the original order (a pure projection);
in particular, for the two input files etc/app/config.conf and README the
backup list contains exactly the first path. -/
theorem createBackupList_spec :
    (∀ files : List pkgFile, createBackupList files =
      (files.filter (fun f => goStartsWith f.Path etcSlash)).map pkgFile.Path) ∧
    createBackupList
      [{ Path := etcConfPath, Name := "config.conf".toList, Hash := [] },
       { Path := readmePath, Name := readmePath, Hash := [] }] = [etcConfPath] := by
  constructor
  · intro files
    simpa [createBackupList] using createBackupListAux_eq files []
  · decide

/-- C8: for every package name p, the generated .gitignore content is
exactly the four lines /*.tar.xz , /pkg , /src and / followed by p, each
terminated by a newline; for package name foo the last line is /foo; the
content is written to .gitignore inside the output directory. -/
theorem gitignore_contents_spec :
    (∀ p : GoStr, gitignoreContents p =
      "/*.tar.xz".toList ++ ['\n'] ++ "/pkg".toList ++ ['\n'] ++
        "/src".toList ++ ['\n'] ++ ['/'] ++ p ++ ['\n']) ∧
    gitignoreContents ("foo".toList) = "/*.tar.xz\n/pkg\n/src\n/foo\n".toList ∧
    (∀ (fs : FS) (dirName p : GoStr),
      fsLookup (createGitignore fs dirName p).1 (filepathJoin dirName gitignoreName) =
        some (FSNode.file (gitignoreContents p))) := by
  refine ⟨?_, by decide, ?_⟩
  · intro p
    simp [gitignoreContents, gitignoreLines, goJoinStrings, newlineStr]
  · intro fs dirName p
    simp [createGitignore, fsLookup]

/-- C10: parseCommaList returns the empty list exactly when its argument
is nil; every provided string value yields at least one element; the
empty string yields the one-element list holding the empty string. -/
theorem parseCommaList_spec :
    (∀ v : Option GoStr, parseCommaList v = [] ↔ v = none) ∧
    (∀ s : GoStr, 1 ≤ (parseCommaList (some s)).length) ∧
    parseCommaList (some []) = [[]] := by
  refine ⟨?_, ?_, by decide⟩
  · intro v
    cases v with
    | none => simp [parseCommaList]
    | some s => simp [parseCommaList, goSplitComma_ne_nil s]
  · intro s
    exact List.length_pos.mpr (goSplitComma_ne_nil s)

/-- C4 counterexample: the input a/.../... ends in the wildcard marker,
yet after one TrimSuffix the returned URL a/... still ends in the marker,
against the claim that the marker is absent from the normalized URL. -/
theorem trimWildcard_marker_cex :
    goHasSuffix ("a/.../...".toList) wildcardMarker = true ∧
    trimWildcardFromRepoURL ("a/.../...".toList) = ("a/...".toList, true) ∧
    goHasSuffix ("a/...".toList) wildcardMarker = true := by decide

/-- C4 amended: for every repository URL ending in the marker, the
wildcard flag is true and the returned URL is the input with exactly one
trailing marker removed (re-appending the marker reproduces the input);
the marker can hence remain when the input ends in a doubled marker. -/
theorem trimWildcard_amended (repo : GoStr)
    (h : goHasSuffix repo wildcardMarker = true) :
    (trimWildcardFromRepoURL repo).2 = true ∧
    (trimWildcardFromRepoURL repo).1 ++ wildcardMarker = repo := by
  have hsuf : wildcardMarker <:+ repo := by
    simpa [goHasSuffix, List.isSuffixOf_iff_suffix] using h
  obtain ⟨t, ht⟩ := hsuf
  have hlen : repo.length - wildcardMarker.length = t.length := by
    subst ht; simp
  have htake : goTrimSuffix repo wildcardMarker = t := by
    rw [goTrimSuffix, if_pos h, hlen]
    subst ht
    exact List.take_left t wildcardMarker
  have hne : t ≠ repo := by
    intro he
    rw [← ht] at he
    have : t.length = t.length + wildcardMarker.length := by
      conv_lhs => rw [he]
      simp
    simp [wildcardMarker] at this
  constructor
  · simp [trimWildcardFromRepoURL, htake, bne_iff_ne, hne]
  · simp [trimWildcardFromRepoURL, htake, ht]

/-- C4 witness: the gb wildcard URL from the tool's usage text. -/
theorem trimWildcard_amended_wit :
    (trimWildcardFromRepoURL ("git://github.com/constabulary/gb/...".toList)).2 = true ∧
    (trimWildcardFromRepoURL ("git://github.com/constabulary/gb/...".toList)).1 ++
      wildcardMarker = "git://github.com/constabulary/gb/...".toList :=
  trimWildcard_amended ("git://github.com/constabulary/gb/...".toList) (by decide)

/-- C1 counterexample: with the output directory already present, Stat
succeeds, yet createOutputDir returns a nil error (the Stat error it
returns in that branch is nil), against the claim of a non-nil error. -/
theorem createOutputDir_cex :
    fsLookup [(buildDir, FSNode.dir)] buildDir = some FSNode.dir ∧
    createOutputDir [(buildDir, FSNode.dir)] buildDir =
      ([(buildDir, FSNode.dir)], none) := by decide

/-- C1 amended: if the output directory name already exists (as a
directory or as anything else), createOutputDir returns a nil error and
leaves the filesystem unchanged (Mkdir is skipped), so a second
invocation against the same directory succeeds and reuses it rather than
failing or overwriting. -/
theorem createOutputDir_existing_noop (fs : FS) (d : GoStr) (n : FSNode)
    (h : fsLookup fs d = some n) : createOutputDir fs d = (fs, none) := by
  simp [createOutputDir, osStat, h, osIsNotExist]

/-- C1 witness: a pre-existing build directory. -/
theorem createOutputDir_existing_noop_wit :
    createOutputDir [(buildDir, FSNode.dir)] buildDir = ([(buildDir, FSNode.dir)], none) :=
  createOutputDir_existing_noop [(buildDir, FSNode.dir)] buildDir FSNode.dir (by decide)

/-- path.Base of a path ending in a nonempty slash-free final component
is that component. -/
theorem goPathBase_append (s tail : GoStr) (hne : tail ≠ [])
    (hns : '/' ∉ tail) : goPathBase (s ++ '/' :: tail) = tail := by
  have hrev : (s ++ '/' :: tail).reverse = tail.reverse ++ '/' :: s.reverse := by
    simp
  have hall : ∀ c ∈ tail.reverse, c ≠ '/' := by
    intro c hc h
    exact hns (h ▸ List.mem_reverse.mp hc)
  have hdrop : dropTrailingSlashes (s ++ '/' :: tail) = s ++ '/' :: tail := by
    rw [dropTrailingSlashes, hrev,
      dropWhile_append_of_head _ _ _ (by simpa using hne)
        (fun c hc => by simp [hall c hc]), ← hrev, List.reverse_reverse]
  have htake : afterLastSlash (s ++ '/' :: tail) = tail := by
    rw [afterLastSlash, hrev,
      takeWhile_append_of_all _ _ _ (fun c hc => by simp [hall c hc])]
    simp [List.takeWhile_cons]
  simp [goPathBase, hdrop, htake, hne]

/-- path.Ext of a final component of the form p.e with dot-free,
slash-free e is .e . -/
theorem goPathExt_of_append (p e : GoStr) (hs : '/' ∉ e) (hd : '.' ∉ e) :
    goPathExt (p ++ '.' :: e) = '.' :: e := by
  have hrev : (p ++ '.' :: e).reverse = e.reverse ++ '.' :: p.reverse := by
    simp
  have hq : ∀ c ∈ e.reverse, c ≠ '/' ∧ c ≠ '.' := by
    intro c hc
    have hc' := List.mem_reverse.mp hc
    exact ⟨fun h => hs (h ▸ hc'), fun h => hd (h ▸ hc')⟩
  rw [goPathExt, hrev, goPathExtAux_append e.reverse hq [] ('.' :: p.reverse)]
  simp [goPathExtAux]

/-- TrimSuffix removes the extension from the final component. -/
theorem goTrimSuffix_append (p q : GoStr) :
    goTrimSuffix (p ++ q) q = p := by
  have hsuf : goHasSuffix (p ++ q) q = true := by
    simp [goHasSuffix, List.isSuffixOf_iff_suffix]
  have hlen : (p ++ q).length - q.length = p.length := by simp
  rw [goTrimSuffix, if_pos hsuf, hlen, List.take_left]

/-- C9: the derived package name is the base path component of the URL
with its final extension removed: for every URL of the form
s/p.e with p a nonempty slash-free component and e a dot-free,
slash-free extension, getPackageNameFromRepoURL yields p. -/
theorem packageName_strips_extension (s p e : GoStr)
    (_hpn : p ≠ []) (hp : '/' ∉ p) (he1 : '/' ∉ e) (he2 : '.' ∉ e) :
    getPackageNameFromRepoURL (s ++ ['/'] ++ p ++ ['.'] ++ e) = p := by
  have harg : s ++ ['/'] ++ p ++ ['.'] ++ e = s ++ '/' :: (p ++ '.' :: e) := by
    simp
  have hne : p ++ '.' :: e ≠ [] := by simp
  have hns : '/' ∉ p ++ '.' :: e := by
    intro h
    rcases List.mem_append.mp h with h | h
    · exact hp h
    · rcases List.mem_cons.mp h with h | h
      · cases h
      · exact he1 h
  rw [harg, getPackageNameFromRepoURL, goPathBase_append s _ hne hns,
    goPathExt_of_append p e he1 he2, goTrimSuffix_append]

/-- C9 witness: the URL of the claim, split as
s = git://example.com/foo , p = bar , e = git . -/
theorem packageName_strips_extension_wit :
    getPackageNameFromRepoURL ("git://example.com/foo/bar.git".toList) = "bar".toList := by
  have h := packageName_strips_extension ("git://example.com/foo".toList)
    ("bar".toList) ("git".toList) (by decide) (by decide) (by decide) (by decide)
  simpa using h

/-- The literal URL separator after a scheme. -/
def colonSlashSlash : GoStr := "://".toList

/-- The lowercase ssh scheme with its separator. -/
def sshUrlLead : GoStr := "ssh://".toList

/-- C3 counterexample input: a mixed-case ssh scheme with the string ssh
also appearing as the host. -/
def cexC3in : GoStr := "Ssh://ssh/x".toList

/-- First normalization of the C3 counterexample input. -/
def cexC3n1 : GoStr := "Ssh://git+ssh/x".toList

/-- Second normalization of the C3 counterexample input. -/
def cexC3n2 : GoStr := "Ssh://git+git+ssh/x".toList

/-- C3 counterexample: Ssh://ssh/x does not end in the wildcard marker and
parses (scheme ssh after lowercasing), yet normalizing it twice yields
Ssh://git+git+ssh/x while normalizing once yields Ssh://git+ssh/x: the
scheme rewrite replaces every occurrence of the lowercased scheme string,
misses the mixed-case scheme itself, and so can fire again on the second
pass. -/
theorem normalize_not_idempotent_cex :
    goHasSuffix cexC3in wildcardMarker = false ∧
    (parseURL cexC3in).isSome = true ∧
    normalizeRepoURL cexC3in = some (cexC3n1, false) ∧
    normalizeRepoURL cexC3n1 = some (cexC3n2, false) ∧
    cexC3n2 ≠ cexC3n1 := by decide

/-- C3 amended: normalization is idempotent on every URL on which the
second pass has nothing left to rewrite: whenever the output v of a first
normalization re-parses with a scheme other than ssh and ssh+git, a
colon-free host, and no trailing wildcard marker, normalizing v returns v
unchanged.  (The counterexample shows the unrestricted claim fails when
the normalized form still re-parses with scheme ssh.) -/
theorem normalize_idempotent_amended (u v : GoStr) (b : Bool) (pv : GoURL)
    (_h1 : normalizeRepoURL u = some (v, b))
    (h2 : parseURL v = some pv)
    (h3 : pv.scheme ≠ sshStr) (h4 : pv.scheme ≠ sshGitStr)
    (h5 : pv.host.contains ':' = false)
    (h6 : goHasSuffix v wildcardMarker = false) :
    normalizeRepoURL v = some (v, false) := by
  have h5' : ¬ (':' ∈ pv.host) := by simpa using h5
  simp [normalizeRepoURL, trimWildcardFromRepoURL, goTrimSuffix, h6, h2, h3, h4, h5']

/-- Witness URL for the amended idempotence claim. -/
def idemWitURL : GoStr := "git://example.com/foo/bar.git".toList

/-- Parse result of the witness URL. -/
def idemWitParsed : GoURL := { scheme := "git".toList, host := "example.com".toList }

/-- C3 witness: the normalization of git://example.com/foo/bar.git is
unchanged by a second pass. -/
theorem normalize_idempotent_amended_wit :
    normalizeRepoURL idemWitURL = some (idemWitURL, false) :=
  normalize_idempotent_amended idemWitURL idemWitURL false idemWitParsed
    (by decide) (by decide) (by decide) (by decide) (by decide) (by decide)

/-- C5 counterexample input: an ssh URL whose path also contains ssh. -/
def cexC5in : GoStr := "ssh://host/sshd".toList

/-- What the code produces for the C5 counterexample input. -/
def cexC5out : GoStr := "git+ssh://host/git+sshd".toList

/-- What the claim predicts for the C5 counterexample input: only the
scheme component rewritten. -/
def cexC5claimed : GoStr := "git+ssh://host/sshd".toList

/-- The host of the C5 counterexample input. -/
def cexC5host : GoStr := "host".toList

/-- C5 counterexample: ssh://host/sshd parses with scheme ssh and a
colon-free host, yet normalization rewrites the ssh occurrence inside the
path as well, so the path component does not stay unchanged. -/
theorem sshRewrite_cex :
    parseURL cexC5in = some { scheme := sshStr, host := cexC5host } ∧
    normalizeRepoURL cexC5in = some (cexC5out, false) ∧
    cexC5out ≠ cexC5claimed := by decide

/-- The scheme rewrite on a lowercase ssh URL whose remainder is free of
the string ssh replaces exactly the leading scheme. -/
theorem replaceAll_ssh_lead (rest : GoStr)
    (hno : containsSub (colonSlashSlash ++ rest) sshStr = false) :
    goReplaceAll (sshUrlLead ++ rest) sshStr gitSshStr =
      gitSshStr ++ colonSlashSlash ++ rest := by
  have hcss : colonSlashSlash ++ rest = ':' :: '/' :: '/' :: rest := rfl
  have hlead : sshUrlLead ++ rest = 's' :: 's' :: 'h' :: ':' :: '/' :: '/' :: rest := rfl
  rw [hcss] at hno
  rw [hlead, List.append_assoc, hcss]
  show replaceAllFuel ('s' :: 's' :: 'h' :: []) gitSshStr
      ('s' :: 's' :: 'h' :: ':' :: '/' :: '/' :: rest).length
      ('s' :: 's' :: 'h' :: ':' :: '/' :: '/' :: rest) = gitSshStr ++ ':' :: '/' :: '/' :: rest
  have hlen : ('s' :: 's' :: 'h' :: ':' :: '/' :: '/' :: rest).length = (rest.length + 5) + 1 := by
    simp
  rw [hlen, replaceAllFuel]
  rw [if_pos (by simp [List.isPrefixOf])]
  simp only [List.length_cons, List.length_nil]
  rw [show (0 + 1 + 1 + 1 - 1 : Nat) = 2 from rfl]
  simp only [List.drop_succ_cons, List.drop_zero]
  have hno' : containsSub (':' :: '/' :: '/' :: rest) (['s', 's', 'h'] : GoStr) = false := hno
  rw [replaceAllFuel_of_not_contains _ _ _ _ hno']

/-- C5 amended: the normalized URL is the input with every occurrence of
the parsed scheme string replaced by git+ssh.  When the input is a
lowercase ssh URL in which ssh occurs nowhere after the scheme and whose
host is colon-free, this replaces exactly the scheme and leaves every
other component unchanged; the counterexample shows other occurrences of
ssh are rewritten too. -/
theorem sshRewrite_amended (rest host : GoStr)
    (hp : parseURL (sshUrlLead ++ rest) = some { scheme := sshStr, host := host })
    (hno : containsSub (colonSlashSlash ++ rest) sshStr = false)
    (hc : host.contains ':' = false)
    (hw : goHasSuffix (sshUrlLead ++ rest) wildcardMarker = false) :
    normalizeRepoURL (sshUrlLead ++ rest) =
      some (gitSshStr ++ colonSlashSlash ++ rest, false) := by
  have hc' : ¬ (':' ∈ host) := by simpa using hc
  simp [normalizeRepoURL, trimWildcardFromRepoURL, goTrimSuffix, hw, hp, hc',
    replaceAll_ssh_lead rest hno]

/-- C5 witness remainder: host/x . -/
def sshWitRest : GoStr := "host/x".toList

/-- C5 witness: normalizing ssh://host/x rewrites exactly the scheme. -/
theorem sshRewrite_amended_wit :
    normalizeRepoURL (sshUrlLead ++ sshWitRest) =
      some (gitSshStr ++ colonSlashSlash ++ sshWitRest, false) :=
  sshRewrite_amended sshWitRest cexC5host (by decide) (by decide) (by decide) (by decide)

/-- A run of the collection loop over names that all exist collects only
regular files among them and returns no error. -/
theorem prepareFileListAux_ok (fs : FS) (outDir : GoStr) :
    ∀ (names : List GoStr) (acc : List pkgFile),
      (∀ name ∈ names, fsLookup fs name ≠ none) →
      ∃ res, prepareFileListAux fs outDir acc names = .ok res ∧
        ∀ f ∈ res, f ∈ acc ∨
          (f.Path ∈ names ∧ ∃ bytes, fsLookup fs f.Path = some (FSNode.file bytes)) := by
  intro names
  induction names with
  | nil =>
    intro acc _
    exact ⟨acc, rfl, fun f hf => Or.inl hf⟩
  | cons name rest ih =>
    intro acc h
    have hrest : ∀ n ∈ rest, fsLookup fs n ≠ none := fun n hn => h n (by simp [hn])
    cases hstat : fsLookup fs name with
    | none => exact absurd hstat (h name (by simp))
    | some n =>
      cases n with
      | dir =>
        obtain ⟨res, hres, hmem⟩ := ih acc hrest
        refine ⟨res, ?_, fun f hf => ?_⟩
        · simpa [prepareFileListAux, osStat, hstat, isDirStat] using hres
        · rcases hmem f hf with hacc | ⟨hpath, hb⟩
          · exact Or.inl hacc
          · exact Or.inr ⟨by simp [hpath], hb⟩
      | file bytes =>
        by_cases hpkg : name = pkgbuildName
        · subst hpkg
          obtain ⟨res, hres, hmem⟩ := ih acc hrest
          refine ⟨res, ?_, fun f hf => ?_⟩
          · simpa [prepareFileListAux, osStat, hstat, isDirStat] using hres
          · rcases hmem f hf with hacc | ⟨hpath, hb⟩
            · exact Or.inl hacc
            · exact Or.inr ⟨by simp [hpath], hb⟩
        · by_cases hout : goStartsWith name outDir = true
          · obtain ⟨res, hres, hmem⟩ := ih acc hrest
            refine ⟨res, ?_, fun f hf => ?_⟩
            · simpa [prepareFileListAux, osStat, hstat, isDirStat, hpkg, hout] using hres
            · rcases hmem f hf with hacc | ⟨hpath, hb⟩
              · exact Or.inl hacc
              · exact Or.inr ⟨by simp [hpath], hb⟩
          · obtain ⟨res, hres, hmem⟩ :=
              ih (acc ++ [pkgFile.mk name (goPathBase name) (goFileHash bytes)]) hrest
            refine ⟨res, ?_, fun f hf => ?_⟩
            · simpa [prepareFileListAux, osStat, hstat, isDirStat, hpkg, hout,
                getFileHash] using hres
            · rcases hmem f hf with hacc | ⟨hpath, hb⟩
              · rcases List.mem_append.mp hacc with h1 | h1
                · exact Or.inl h1
                · have hfe : f = pkgFile.mk name (goPathBase name) (goFileHash bytes) := by
                    simpa using h1
                  exact Or.inr ⟨by simp [hfe], ⟨bytes, by simp [hfe, hstat]⟩⟩
              · exact Or.inr ⟨by simp [hpath], hb⟩

/-- A run of the collection loop over names one of which is absent
returns an error. -/
theorem prepareFileListAux_missing (fs : FS) (outDir : GoStr) :
    ∀ (names : List GoStr) (acc : List pkgFile),
      (∃ name ∈ names, fsLookup fs name = none) →
      ∃ e, prepareFileListAux fs outDir acc names = .error e := by
  intro names
  induction names with
  | nil =>
    rintro acc ⟨name, hmem, _⟩
    simp at hmem
  | cons name rest ih =>
    rintro acc ⟨m, hmem, hmiss⟩
    rcases List.mem_cons.mp hmem with rfl | hmrest
    · exact ⟨GoError.notExist, by simp [prepareFileListAux, osStat, hmiss, osIsExist]⟩
    · cases hstat : fsLookup fs name with
      | none =>
        exact ⟨GoError.notExist, by simp [prepareFileListAux, osStat, hstat, osIsExist]⟩
      | some n =>
        cases n with
        | dir =>
          obtain ⟨e, he⟩ := ih acc ⟨m, hmrest, hmiss⟩
          exact ⟨e, by simpa [prepareFileListAux, osStat, hstat, isDirStat] using he⟩
        | file bytes =>
          by_cases hpkg : name = pkgbuildName
          · subst hpkg
            obtain ⟨e, he⟩ := ih acc ⟨m, hmrest, hmiss⟩
            exact ⟨e, by simpa [prepareFileListAux, osStat, hstat, isDirStat] using he⟩
          · by_cases hout : goStartsWith name outDir = true
            · obtain ⟨e, he⟩ := ih acc ⟨m, hmrest, hmiss⟩
              exact ⟨e, by
                simpa [prepareFileListAux, osStat, hstat, isDirStat, hpkg, hout] using he⟩
            · obtain ⟨e, he⟩ :=
                ih (acc ++ [pkgFile.mk name (goPathBase name) (goFileHash bytes)])
                  ⟨m, hmrest, hmiss⟩
              exact ⟨e, by
                simpa [prepareFileListAux, osStat, hstat, isDirStat, hpkg, hout,
                  getFileHash] using he⟩

/-- C2: for every input path list, prepareFileList silently excludes
every path naming an existing directory (the run returns no error and
yields File Entries only for regular files among the names), and returns
a non-nil error as soon as some path names no existing file; main treats
that error as fatal. -/
theorem prepareFileList_dir_skip_missing_fatal (fs : FS) (names : List GoStr)
    (outDir : GoStr) :
    ((∀ name ∈ names, fsLookup fs name ≠ none) →
      ∃ res, prepareFileList fs names outDir = .ok res ∧
        ∀ f ∈ res, f.Path ∈ names ∧
          ∃ bytes, fsLookup fs f.Path = some (FSNode.file bytes)) ∧
    ((∃ name ∈ names, fsLookup fs name = none) →
      ∃ e, prepareFileList fs names outDir = .error e) := by
  constructor
  · intro h
    obtain ⟨res, hres, hmem⟩ := prepareFileListAux_ok fs outDir names [] h
    refine ⟨res, hres, fun f hf => ?_⟩
    rcases hmem f hf with hacc | hgood
    · simp at hacc
    · exact hgood
  · intro h
    exact prepareFileListAux_missing fs outDir names [] h

/-- A directory path used by the C2 witness. -/
def someDirPath : GoStr := "somedir".toList

/-- The filesystem of the C2 witness: a config file and a directory. -/
def demoFS : FS := [(etcConfPath, FSNode.file []), (someDirPath, FSNode.dir)]

/-- C2 witness: over an existing file and an existing directory the run
succeeds and collects only the file; over a missing README the run
errors. -/
theorem prepareFileList_dir_skip_missing_fatal_wit :
    (∃ res, prepareFileList demoFS [etcConfPath, someDirPath] buildDir = .ok res ∧
      ∀ f ∈ res, f.Path ∈ [etcConfPath, someDirPath] ∧
        ∃ bytes, fsLookup demoFS f.Path = some (FSNode.file bytes)) ∧
    (∃ e, prepareFileList demoFS [readmePath] buildDir = .error e) :=
  ⟨(prepareFileList_dir_skip_missing_fatal demoFS [etcConfPath, someDirPath] buildDir).1
      (by decide),
   (prepareFileList_dir_skip_missing_fatal demoFS [readmePath] buildDir).2 (by decide)⟩

/-- C6: copyLocalFiles leaves every pre-existing path (in particular any
already-present destination file) bound to its old node and returns no
error, and any path it newly binds is the destination of one of the
entries and was absent before; the hypothesis asks only that entries
whose destination is absent have an existing source, as the link needs
one. -/
theorem copyLocalFiles_frame (files : List pkgFile) (outDir : GoStr) :
    ∀ fs : FS,
      (∀ f ∈ files, fsLookup fs (filepathJoin outDir f.Name) = none →
        fsLookup fs f.Path ≠ none) →
      ∃ fs', copyLocalFiles fs files outDir = (fs', none) ∧
        (∀ p n, fsLookup fs p = some n → fsLookup fs' p = some n) ∧
        (∀ p, fsLookup fs p = none → (fsLookup fs' p).isSome = true →
          ∃ f ∈ files, p = filepathJoin outDir f.Name) := by
  induction files with
  | nil =>
    intro fs _
    exact ⟨fs, rfl, fun p n hp => hp, fun p h1 h2 => by simp [h1] at h2⟩
  | cons f rest ih =>
    intro fs h
    cases htgt : fsLookup fs (filepathJoin outDir f.Name) with
    | some n0 =>
      obtain ⟨fs', hrun, hpres, hnew⟩ := ih fs (fun g hg => h g (by simp [hg]))
      refine ⟨fs', ?_, hpres, fun p h1 h2 => ?_⟩
      · simpa [copyLocalFiles, osStat, htgt] using hrun
      · obtain ⟨g, hg, hp⟩ := hnew p h1 h2
        exact ⟨g, by simp [hg], hp⟩
    | none =>
      cases hsrc : fsLookup fs f.Path with
      | none => exact absurd hsrc (h f (by simp) htgt)
      | some n =>
        have hmono : ∀ p m, fsLookup fs p = some m →
            fsLookup ((filepathJoin outDir f.Name, n) :: fs) p = some m := by
          intro p m hp
          by_cases hpt : filepathJoin outDir f.Name = p
          · rw [hpt] at htgt
            rw [htgt] at hp
            cases hp
          · simp [fsLookup, hpt, hp]
        have hR : ∀ g ∈ rest,
            fsLookup ((filepathJoin outDir f.Name, n) :: fs)
              (filepathJoin outDir g.Name) = none →
            fsLookup ((filepathJoin outDir f.Name, n) :: fs) g.Path ≠ none := by
          intro g hg hgt
          have hgt0 : fsLookup fs (filepathJoin outDir g.Name) = none := by
            cases hq : fsLookup fs (filepathJoin outDir g.Name) with
            | none => rfl
            | some m =>
              rw [hmono _ _ hq] at hgt
              cases hgt
          have hsome := h g (by simp [hg]) hgt0
          cases hq : fsLookup fs g.Path with
          | none => exact absurd hq hsome
          | some m =>
            rw [hmono _ _ hq]
            simp
        obtain ⟨fs', hrun, hpres, hnew⟩ := ih ((filepathJoin outDir f.Name, n) :: fs) hR
        refine ⟨fs', ?_, ?_, ?_⟩
        · simpa [copyLocalFiles, osStat, htgt, osIsNotExist, osLink, hsrc] using hrun
        · intro p m hp
          exact hpres p m (hmono p m hp)
        · intro p h1 h2
          by_cases hpt : p = filepathJoin outDir f.Name
          · exact ⟨f, by simp, hpt⟩
          · have hne : ¬ (filepathJoin outDir f.Name = p) := fun he => hpt he.symm
            have h1' : fsLookup ((filepathJoin outDir f.Name, n) :: fs) p = none := by
              simp [fsLookup, hne, h1]
            obtain ⟨g, hg, hp⟩ := hnew p h1' h2
            exact ⟨g, by simp [hg], hp⟩

/-- The destination base name of the C6 witness entry. -/
def confName : GoStr := "config.conf".toList

/-- The filesystem of the C6 witness: the destination already exists in
the output directory. -/
def linkedFS : FS := [(filepathJoin buildDir confName, FSNode.file [])]

/-- C6 witness: with the destination already present, the run returns no
error, the pre-existing destination keeps its node, and nothing new
appears outside the entries' destinations. -/
theorem copyLocalFiles_frame_wit :
    ∃ fs', copyLocalFiles linkedFS
        [pkgFile.mk etcConfPath confName []] buildDir = (fs', none) ∧
      (∀ p n, fsLookup linkedFS p = some n → fsLookup fs' p = some n) ∧
      (∀ p, fsLookup linkedFS p = none → (fsLookup fs' p).isSome = true →
        ∃ f ∈ [pkgFile.mk etcConfPath confName []],
          p = filepathJoin buildDir f.Name) :=
  copyLocalFiles_frame [pkgFile.mk etcConfPath confName []] buildDir
    linkedFS (by decide)

end GoMakepkg
